import Mathlib

/-!
Shallow embedding of `minesweeper.py` (the `Sentence` and `MinesweeperAI`
classes) and verification of the claims of the specification about it.

Cells are pairs of integers; a `Sentence` pairs a finite set of cells with an
integer mine count.  The engine state (`AI`) owns the probed / safe / mine sets
and the ordered knowledge base of sentences.  The in-place list mutation of
Python is modelled positionally: `pyRemove` is `list.remove` (delete the first equal
element), `nthS` is `list[i]` with the read-at-current-state semantics of Python,
and the remove-while-iterating loop of `add_knowledge` is `pyFilterEmptiesAux`
with the index/length interaction of the iterator reproduced exactly.
-/

namespace Minesweeper

abbrev Cell : Type := ℤ × ℤ

/-- Source class `Sentence(cells, count)`: a set of board cells and a count
of how many of them are mines.  Equality in Python (`__eq__`) compares both
fields, matching structural equality here. -/
structure Sentence where
  cells : Finset Cell
  count : ℤ
  deriving DecidableEq

namespace Sentence

/-- Source method `Sentence.known_mines`: `some ∅` when `count == 0`, `some cells` when
`count == len(cells)`, and `none` (the implicit `None` of Python) otherwise. -/
def known_mines (s : Sentence) : Option (Finset Cell) :=
  if s.count = 0 then some ∅
  else if s.count = (s.cells.card : ℤ) then some s.cells
  else none

/-- Source method `Sentence.known_safes`: `some cells` when `count == 0`, `some ∅` when
`count == len(cells)`, and `none` otherwise. -/
def known_safes (s : Sentence) : Option (Finset Cell) :=
  if s.count = 0 then some s.cells
  else if s.count = (s.cells.card : ℤ) then some ∅
  else none

/-- Source method `Sentence.mark_mine`: if the cell is a member, remove it and decrement the
count; otherwise leave the sentence unchanged. -/
def mark_mine (s : Sentence) (c : Cell) : Sentence :=
  if c ∈ s.cells then ⟨s.cells.erase c, s.count - 1⟩ else s

/-- Source method `Sentence.mark_safe`: if the cell is a member, remove it; the count is
unchanged.  Otherwise leave the sentence unchanged. -/
def mark_safe (s : Sentence) (c : Cell) : Sentence :=
  if c ∈ s.cells then ⟨s.cells.erase c, s.count⟩ else s

end Sentence

/-- Python truthiness of the value returned by `known_mines`/`known_safes`:
`None` and the empty set are falsy, a non-empty set is truthy. -/
def otruthy (o : Option (Finset Cell)) : Bool :=
  match o with
  | none => false
  | some x => decide (x ≠ ∅)

/-- The engine state of `MinesweeperAI`: board dimensions, the probed cells
(`moves_made`), the known mines and safes, and the knowledge base. -/
structure AI where
  height : ℤ
  width : ℤ
  moves_made : Finset Cell
  mines : Finset Cell
  safes : Finset Cell
  knowledge : List Sentence
  deriving DecidableEq

/-- Source constructor `MinesweeperAI.__init__(height, width)`: empty sets, empty knowledge. -/
def initAI (h w : ℤ) : AI :=
  ⟨h, w, ∅, ∅, ∅, []⟩

namespace AI

/-- Source method `MinesweeperAI.mark_mine`: add the cell to `mines` and call
`Sentence.mark_mine` on every sentence in the knowledge base. -/
def mark_mine (ai : AI) (c : Cell) : AI :=
  { ai with mines := insert c ai.mines,
            knowledge := ai.knowledge.map (fun s => s.mark_mine c) }

/-- Source method `MinesweeperAI.mark_safe`: add the cell to `safes` and call
`Sentence.mark_safe` on every sentence in the knowledge base. -/
def mark_safe (ai : AI) (c : Cell) : AI :=
  { ai with safes := insert c ai.safes,
            knowledge := ai.knowledge.map (fun s => s.mark_safe c) }

end AI

/-- Mark every cell of `X` safe (the `for cell in x: self.mark_safe(cell)`
loop of the extraction phase, over the copied set `x`).  Marking cells one at
a time commutes, so the loop is embedded as the simultaneous update; the
lemmas `markSafeAll_empty` and `markSafeAll_insert` below recover the
per-cell iteration in any order. -/
def markSafeAll (ai : AI) (X : Finset Cell) : AI :=
  { ai with safes := ai.safes ∪ X,
            knowledge := ai.knowledge.map (fun s => ⟨s.cells \ X, s.count⟩) }

/-- Mark every cell of `X` a mine (the `for cell in x: self.mark_mine(cell)`
loop of the extraction phase).  Each sentence loses the cells of `X` it
contains and its count drops by the number of cells lost; the lemmas
`markMineAll_empty` and `markMineAll_insert` recover the per-cell loop. -/
def markMineAll (ai : AI) (X : Finset Cell) : AI :=
  { ai with mines := ai.mines ∪ X,
            knowledge := ai.knowledge.map
              (fun s => ⟨s.cells \ X, s.count - ((s.cells ∩ X).card : ℤ)⟩) }

/-- Python `list[i]` read at the current state of the list; out-of-range reads
return the empty sentence (only ever used where the index is in range, or
where the result is discarded). -/
def nthS (l : List Sentence) (i : Nat) : Sentence :=
  (l.get? i).getD ⟨∅, 0⟩

/-- Python `list.remove(x)`: delete the first element equal to `x` (equality
is `Sentence.__eq__`, i.e. structural equality). -/
def pyRemove (l : List Sentence) (x : Sentence) : List Sentence :=
  match l with
  | [] => []
  | a :: t => if a = x then t else a :: pyRemove t x

/-- The `for sentence in self.knowledge: if len(sentence.cells) == 0:
self.knowledge.remove(sentence)` loop.  The Python list iterator advances its
index after every yield even when the body removed an element, so the element
following a removal is skipped; `k` is the iterator index and the fuel is an
upper bound on the number of remaining yields. -/
def pyFilterEmptiesAux : Nat → List Sentence → Nat → List Sentence
  | 0, l, _ => l
  | fuel + 1, l, k =>
      if h : k < l.length then
        if (l.get ⟨k, h⟩).cells = ∅ then
          pyFilterEmptiesAux fuel (pyRemove l (l.get ⟨k, h⟩)) (k + 1)
        else pyFilterEmptiesAux fuel l (k + 1)
      else l

/-- Remove (most) empty sentences: the cleanup pass at the start of
`add_knowledge`. -/
def pyFilterEmpties (l : List Sentence) : List Sentence :=
  pyFilterEmptiesAux l.length l 0

/-- The eight grid-adjacent coordinates of a cell (the `i, j` double loop of
`add_knowledge` minus the cell itself), restricted to
`0 <= i < height` and `0 <= j < width`. -/
def nbrs (h w : ℤ) (c : Cell) : Finset Cell :=
  ([(c.1 - 1, c.2 - 1), (c.1 - 1, c.2), (c.1 - 1, c.2 + 1),
    (c.1, c.2 - 1), (c.1, c.2 + 1),
    (c.1 + 1, c.2 - 1), (c.1 + 1, c.2), (c.1 + 1, c.2 + 1)].toFinset).filter
    (fun p => 0 ≤ p.1 ∧ p.1 < h ∧ 0 ≤ p.2 ∧ p.2 < w)

/-- Step 1-2 of `add_knowledge`: record the move and mark the probed cell
safe. -/
def observe (ai : AI) (c : Cell) : AI :=
  AI.mark_safe { ai with moves_made := insert c ai.moves_made } c

/-- The candidate cell set of the new sentence: in-bounds neighbours of the
probed cell that are in neither `self.mines` nor `self.safes` (read after the
probed cell itself was marked safe). -/
def candidateCells (ai : AI) (c : Cell) : Finset Cell :=
  (nbrs ai.height ai.width c).filter (fun p => p ∉ ai.mines ∧ p ∉ ai.safes)

/-- The count of the new sentence: the reported count minus one for each in-bounds
neighbour already known to be a mine. -/
def adjustedCount (ai : AI) (c : Cell) (n : ℤ) : ℤ :=
  n - (((nbrs ai.height ai.width c).filter (fun p => p ∈ ai.mines)).card : ℤ)

/-- The cleanup pass of `add_knowledge` applied to the knowledge of the engine. -/
def cleanup (ai : AI) : AI :=
  { ai with knowledge := pyFilterEmpties ai.knowledge }

/-- One iteration of the subset-method loop of `add_knowledge`.  `cells` and
`cnt` are the local variables of the Python function (the candidate set and
adjusted count, fixed for the whole loop), `newS` is the appended
`new_sentence`, `l` the current knowledge list and `i` the loop index.
If `l[i].cells` is a subset of `cells`, the derived sentence
`(cells - l[i].cells, cnt - l[i].count)` is appended and `new_sentence` is
removed if still present; if `cells` is a subset of `l[i].cells`, the derived
sentence `(l[i].cells - cells, l[i].count - cnt)` is appended and the first
sentence equal to `l[i]` is removed. -/
def subsetStep (cells : Finset Cell) (cnt : ℤ) (newS : Sentence)
    (l : List Sentence) (i : Nat) : List Sentence :=
  if (nthS l i).cells = cells then l
  else if (nthS l i).cells ⊆ cells then
    if newS ∈ l ++ [⟨cells \ (nthS l i).cells, cnt - (nthS l i).count⟩] then
      pyRemove (l ++ [⟨cells \ (nthS l i).cells, cnt - (nthS l i).count⟩]) newS
    else l ++ [⟨cells \ (nthS l i).cells, cnt - (nthS l i).count⟩]
  else if cells ⊆ (nthS l i).cells then
    pyRemove (l ++ [⟨(nthS l i).cells \ cells, (nthS l i).count - cnt⟩])
      (nthS (l ++ [⟨(nthS l i).cells \ cells, (nthS l i).count - cnt⟩]) i)
  else l

/-- The subset-method loop: `length = len(self.knowledge)` is read once after
`new_sentence` was appended, and the loop runs over `range(length)` while the
list mutates underneath it. -/
def subsetPhase (l : List Sentence) (cells : Finset Cell) (cnt : ℤ)
    (newS : Sentence) : List Sentence :=
  (List.range l.length).foldl (subsetStep cells cnt newS) l

/-- Steps 3 and 5 of `add_knowledge` for a non-empty candidate set: append
the new sentence and run the subset-method loop. -/
def resolvePhase (ai : AI) (cells : Finset Cell) (cnt : ℤ) : AI :=
  { ai with knowledge :=
      subsetPhase (ai.knowledge ++ [⟨cells, cnt⟩]) cells cnt ⟨cells, cnt⟩ }

/-- The safe-marking half of one extraction iteration: read the sentence at
index `i` and, when its `known_safes()` is truthy, mark a copy of that set
safe (which mutates every sentence, including this one). -/
def extractSafe (ai : AI) (i : Nat) : AI :=
  if otruthy (nthS ai.knowledge i).known_safes then
    markSafeAll ai ((nthS ai.knowledge i).known_safes.getD ∅)
  else ai

/-- The mine-marking half of one extraction iteration: re-read the sentence at
index `i` (it may have shrunk during the safe-marking half) and, when its
`known_mines()` is truthy, mark a copy of that set as mines. -/
def extractMine (ai : AI) (i : Nat) : AI :=
  if otruthy (nthS ai.knowledge i).known_mines then
    markMineAll ai ((nthS ai.knowledge i).known_mines.getD ∅)
  else ai

/-- One iteration of the extraction loop of `add_knowledge`: the safe-marking
half followed by the mine-marking half on the mutated state. -/
def extractStep (ai : AI) (i : Nat) : AI :=
  extractMine (extractSafe ai i) i

/-- The extraction loop (`for sentence in self.knowledge` with the safe/mine
marking bodies).  Marking never adds or removes list entries, so the iterator
visits each index of the list exactly once, reading its current contents. -/
def extraction (ai : AI) : AI :=
  (List.range ai.knowledge.length).foldl extractStep ai

/-- Source method `MinesweeperAI.add_knowledge(cell, count)`: record the move, mark the cell
safe, build the candidate set and adjusted count, remove empty sentences, and
- when the candidate set is non-empty - append the new sentence, run the
subset-method loop, then run the extraction loop. -/
def add_knowledge (ai : AI) (c : Cell) (n : ℤ) : AI :=
  if candidateCells (observe ai c) c = ∅ then cleanup (observe ai c)
  else extraction (resolvePhase (cleanup (observe ai c))
    (candidateCells (observe ai c) c) (adjustedCount (observe ai c) c n))

/-- Source method `MinesweeperAI.make_safe_move`: return a cell of `self.safes` not in
`self.moves_made` if one exists, else `None`.  The set-iteration order is
abstracted by `pick`; the engine state is returned unchanged alongside the
result. -/
def make_safe_move (ai : AI) (pick : Finset Cell → Cell) : Option Cell × AI :=
  (if ai.safes \ ai.moves_made = ∅ then none
   else some (pick (ai.safes \ ai.moves_made)), ai)

/-- The set `setall` built by `MinesweeperAI.make_random_move`: note the
source iterates `i in range(0, self.width)` and `j in range(0, self.height)`
and inserts `(i, j)`, so the first coordinate ranges over the width and the
second over the height; then the moves made, safes and mines are removed. -/
def random_setall (ai : AI) : Finset Cell :=
  ((((Finset.Icc 0 (ai.width - 1) ×ˢ Finset.Icc 0 (ai.height - 1)) \
    ai.moves_made) \ ai.safes) \ ai.mines)

/-- Source method `MinesweeperAI.make_random_move`: `None` when `setall` is empty, otherwise
a randomly sampled element of `setall` (the random draw is abstracted by
`pick`).  The engine state is returned unchanged alongside the result. -/
def make_random_move (ai : AI) (pick : Finset Cell → Cell) : Option Cell × AI :=
  (if random_setall ai = ∅ then none else some (pick (random_setall ai)), ai)

/-- Modelled from the spec (§4.2 `next_random_move`): the candidate pool the
specification prescribes, `all_cells − probed − known_safe − known_mine` with
`all_cells = [0,height) x [0,width)`.  Used only to compare the
`random_setall` of the code against the words of the spec. -/
def spec_random_candidates (ai : AI) : Finset Cell :=
  ((((Finset.Icc 0 (ai.height - 1) ×ˢ Finset.Icc 0 (ai.width - 1)) \
    ai.moves_made) \ ai.safes) \ ai.mines)

/-! ### Predicates, call sequences, and concrete traces used by the claims -/

/-- Every cell of every sentence of `l` avoids the set `A`. -/
def KnowledgeAvoids (A : Finset Cell) (l : List Sentence) : Prop :=
  ∀ S ∈ l, ∀ c ∈ S.cells, c ∉ A

/-- The engine invariant: `safes` and `mines` are disjoint and no sentence of
the knowledge base mentions a cell already known safe or known mine. -/
def InvAI (ai : AI) : Prop :=
  Disjoint ai.safes ai.mines ∧ KnowledgeAvoids (ai.safes ∪ ai.mines) ai.knowledge

/-- The engine states reachable by sequences of public calls in which
`add_knowledge` is never invoked on a cell already known to be a mine (the
guard under which the disjointness claim survives). -/
inductive ReachableOK : AI → Prop where
  | init (h w : ℤ) : ReachableOK (initAI h w)
  | obs {s : AI} (c : Cell) (n : ℤ) :
      ReachableOK s → c ∉ s.mines → ReachableOK (add_knowledge s c n)
  | safeMove {s : AI} (pick : Finset Cell → Cell) :
      ReachableOK s → ReachableOK (make_safe_move s pick).2
  | randomMove {s : AI} (pick : Finset Cell → Cell) :
      ReachableOK s → ReachableOK (make_random_move s pick).2

/-- One call of the pair of mutating `Sentence` operations. -/
inductive MarkOp where
  | mine (c : Cell)
  | safe (c : Cell)
  deriving DecidableEq

/-- Apply one `mark_mine`/`mark_safe` call to a sentence. -/
def applyOp (s : Sentence) : MarkOp → Sentence
  | .mine c => s.mark_mine c
  | .safe c => s.mark_safe c

/-- Apply a sequence of calls in order. -/
def applyOps (s : Sentence) (ops : List MarkOp) : Sentence :=
  ops.foldl applyOp s

/-- The sentence invariant `0 <= count <= |cells|`. -/
def InvS (s : Sentence) : Prop :=
  0 ≤ s.count ∧ s.count ≤ (s.cells.card : ℤ)

instance (s : Sentence) : Decidable (InvS s) :=
  inferInstanceAs (Decidable (_ ∧ _))

/-- A call is consistent with the sentence it is applied to: a member cell is
marked a mine only while the count is positive, and marked safe only while the
count is below the number of cells (i.e. the marking agrees with some possible
mine assignment of the constraint). -/
def OkStep (s : Sentence) : MarkOp → Prop
  | .mine c => c ∈ s.cells → 0 < s.count
  | .safe c => c ∈ s.cells → s.count < (s.cells.card : ℤ)

instance (s : Sentence) (op : MarkOp) : Decidable (OkStep s op) := by
  cases op <;> (unfold OkStep; infer_instance)

/-- Every call of the sequence is consistent with the sentence state it is
applied to. -/
def OkSeq : Sentence → List MarkOp → Prop
  | _, [] => True
  | s, op :: t => OkStep s op ∧ OkSeq (applyOp s op) t

instance instDecidableOkSeq : (s : Sentence) → (ops : List MarkOp) → Decidable (OkSeq s ops)
  | _, [] => isTrue trivial
  | s, op :: t =>
    have : Decidable (OkSeq (applyOp s op) t) := instDecidableOkSeq _ t
    inferInstanceAs (Decidable (_ ∧ _))

/-- A 1x5 board: probe `(0,1)` with count 1, then `(0,3)` with count 2.  The
extraction of the second call marks `(0,2)` and `(0,4)` as mines, which
empties the new sentence and shrinks the sentence of the first call to
`({(0,0)}, 0)` - after
the sentence at its index was already visited, so `(0,0)` is never marked. -/
def trace15 : AI :=
  add_knowledge (add_knowledge (initAI 1 5) ((0:ℤ), (1:ℤ)) 1) ((0:ℤ), (3:ℤ)) 2

/-- A 2x2 board: probing the corner `(0,0)` with count 3 marks all three
neighbours as mines and leaves the emptied sentence `(∅, 0)` in the knowledge
base. -/
def trace22 : AI := add_knowledge (initAI 2 2) ((0:ℤ), (0:ℤ)) 3

/-- Continue `trace22` by probing `(0,1)` - a cell already known to be a
mine.  `add_knowledge` unconditionally marks the probed cell safe, so `safes`
and `mines` intersect afterwards. -/
def trace22b : AI := add_knowledge trace22 ((0:ℤ), (1:ℤ)) 0

/-- The engine state of claim C2: a 3x3 board whose knowledge base holds the
constraint `A = {(0,0),(0,1),(0,2)} = 1` and in which the four ring cells
`(1,2),(2,0),(2,1),(2,2)` are already known safe, so that probing the centre
`(1,1)` with count 2 produces exactly the superset constraint
`B = {(0,0),(0,1),(0,2),(1,0)} = 2`. -/
def c2state : AI :=
  ⟨3, 3, ∅, ∅, {((1:ℤ),(2:ℤ)), ((2:ℤ),(0:ℤ)), ((2:ℤ),(1:ℤ)), ((2:ℤ),(2:ℤ))},
    [⟨{((0:ℤ),(0:ℤ)), ((0:ℤ),(1:ℤ)), ((0:ℤ),(2:ℤ))}, 1⟩]⟩

/-- A 2x1 board (height 2, width 1) with both of its cells probed: cell
`(1,0)` is marked safe by the zero-count deduction of the first probe.  Every
board cell is probed, so the random-move candidate pool of the spec is empty. -/
def trace21 : AI :=
  add_knowledge (add_knowledge (initAI 2 1) ((0:ℤ), (0:ℤ)) 0) ((1:ℤ), (0:ℤ)) 0

/-- A small state whose knowledge base is the single zero-count sentence
`({(0,0)}, 0)`; used to instantiate the general zero-rule of claim C8. -/
def zeroState : AI := ⟨1, 1, ∅, ∅, ∅, [⟨{((0:ℤ), (0:ℤ))}, 0⟩]⟩

/-! ### Faithfulness of the set-wise marking operations

`markSafeAll`/`markMineAll` embed the `for cell in x:` loops of the extraction
phase as one simultaneous update.  The lemmas below show the update over
`insert c X` equals a single-cell `mark_safe`/`mark_mine` call followed by the
update over `X`, so iterating the single-cell source operations in any order
yields the simultaneous form. -/

theorem Sentence.mark_safe_eq (s : Sentence) (c : Cell) :
    s.mark_safe c = ⟨s.cells.erase c, s.count⟩ := by
  unfold Sentence.mark_safe
  split
  · rfl
  · rename_i h
    rw [Finset.erase_eq_of_not_mem h]

theorem markSafeAll_empty (ai : AI) : markSafeAll ai ∅ = ai := by
  unfold markSafeAll
  cases ai with
  | mk h w m mi sa k =>
    simp [List.map_id'']

theorem markMineAll_empty (ai : AI) : markMineAll ai ∅ = ai := by
  unfold markMineAll
  cases ai with
  | mk h w m mi sa k =>
    simp [List.map_id'']

theorem markSafeAll_insert (ai : AI) (c : Cell) (X : Finset Cell) :
    markSafeAll ai (insert c X) = markSafeAll (ai.mark_safe c) X := by
  unfold markSafeAll AI.mark_safe
  cases ai with
  | mk h w m mi sa k =>
    simp only [AI.mk.injEq, List.map_map, true_and]
    constructor
    · ext p
      simp only [Finset.mem_union, Finset.mem_insert]
      tauto
    · apply List.map_congr_left
      intro s _
      simp only [Function.comp_apply, Sentence.mark_safe_eq, Sentence.mk.injEq, and_true]
      rw [Finset.erase_eq]
      ext p
      simp only [Finset.mem_sdiff, Finset.mem_insert, Finset.mem_singleton]
      tauto

theorem Sentence.mark_mine_eq (s : Sentence) (c : Cell) :
    s.mark_mine c =
      ⟨s.cells.erase c, s.count - ((s.cells ∩ ({c} : Finset Cell)).card : ℤ)⟩ := by
  unfold Sentence.mark_mine
  by_cases h : c ∈ s.cells
  · simp [h, Finset.inter_singleton_of_mem h]
  · simp [h, Finset.erase_eq_of_not_mem h, Finset.inter_singleton_of_not_mem h]

theorem markMineAll_insert (ai : AI) (c : Cell) (X : Finset Cell) (hc : c ∉ X) :
    markMineAll ai (insert c X) = markMineAll (ai.mark_mine c) X := by
  unfold markMineAll AI.mark_mine
  cases ai with
  | mk h w m mi sa k =>
    simp only [AI.mk.injEq, List.map_map, true_and]
    refine ⟨?_, ?_⟩
    · ext p
      simp only [Finset.mem_union, Finset.mem_insert]
      tauto
    · apply List.map_congr_left
      intro s _
      simp only [Function.comp_apply, Sentence.mark_mine_eq, Sentence.mk.injEq]
      constructor
      · rw [Finset.erase_eq]
        ext p
        simp only [Finset.mem_sdiff, Finset.mem_insert, Finset.mem_singleton]
        tauto
      · have hsplit : s.cells ∩ insert c X = (s.cells ∩ {c}) ∪ (s.cells.erase c ∩ X) := by
          ext p
          simp only [Finset.mem_inter, Finset.mem_insert, Finset.mem_union,
            Finset.mem_singleton, Finset.mem_erase]
          constructor
          · rintro ⟨hp, (rfl | hpX)⟩
            · exact Or.inl ⟨hp, rfl⟩
            · refine Or.inr ⟨⟨?_, hp⟩, hpX⟩
              rintro rfl
              exact hc hpX
          · rintro (⟨hp, rfl⟩ | ⟨⟨_, hp⟩, hpX⟩)
            · exact ⟨hp, Or.inl rfl⟩
            · exact ⟨hp, Or.inr hpX⟩
        have hdisj : Disjoint (s.cells ∩ {c}) (s.cells.erase c ∩ X) := by
          rw [Finset.disjoint_left]
          intro p hp1 hp2
          rw [Finset.mem_inter, Finset.mem_singleton] at hp1
          rw [Finset.mem_inter, Finset.mem_erase] at hp2
          exact hp2.1.1 hp1.2
        rw [hsplit, Finset.card_union_of_disjoint hdisj]
        push_cast
        ring

/-! ### List-level helper lemmas -/

theorem mem_pyRemove {l : List Sentence} {x S : Sentence} (h : S ∈ pyRemove l x) :
    S ∈ l := by
  induction l with
  | nil => exact absurd h (by simp [pyRemove])
  | cons a t ih =>
    rw [pyRemove] at h
    by_cases hax : a = x
    · simp only [hax, if_pos rfl] at h
      exact List.mem_cons_of_mem _ h
    · simp only [if_neg hax] at h
      rcases List.mem_cons.mp h with rfl | h
      · exact List.mem_cons_self _ _
      · exact List.mem_cons_of_mem _ (ih h)

theorem mem_pyFilterEmptiesAux {fuel : Nat} :
    ∀ {l : List Sentence} {k : Nat} {S : Sentence},
      S ∈ pyFilterEmptiesAux fuel l k → S ∈ l := by
  induction fuel with
  | zero => intro l k S h; exact h
  | succ fuel ih =>
    intro l k S h
    rw [pyFilterEmptiesAux] at h
    split at h
    · split at h
      · exact mem_pyRemove (ih h)
      · exact ih h
    · exact h

theorem mem_pyFilterEmpties {l : List Sentence} {S : Sentence}
    (h : S ∈ pyFilterEmpties l) : S ∈ l :=
  mem_pyFilterEmptiesAux h

theorem foldl_preserve {α β : Type _} {P : α → Prop} {f : α → β → α}
    (hf : ∀ a b, P a → P (f a b)) :
    ∀ (l : List β) (a : α), P a → P (List.foldl f a l) := by
  intro l
  induction l with
  | nil => intro a h; exact h
  | cons b t ih => intro a h; exact ih (f a b) (hf a b h)

theorem nthS_mem_or (l : List Sentence) (i : Nat) :
    nthS l i ∈ l ∨ nthS l i = ⟨∅, 0⟩ := by
  unfold nthS
  cases hg : l.get? i with
  | none => exact Or.inr rfl
  | some s => exact Or.inl (by simpa using List.get?_mem hg)

/-! ### The safes/mines invariant (claim C4) -/

theorem knowledgeAvoids_of_subset {A : Finset Cell} {l l' : List Sentence}
    (hsub : ∀ S ∈ l', S ∈ l) (h : KnowledgeAvoids A l) : KnowledgeAvoids A l' :=
  fun S hS => h S (hsub S hS)

theorem initAI_inv (h w : ℤ) : InvAI (initAI h w) := by
  constructor
  · simp [initAI]
  · intro S hS
    exact absurd hS (by simp [initAI])

theorem markSafeAll_inv {ai : AI} {X : Finset Cell} (hinv : InvAI ai)
    (hX : ∀ c ∈ X, c ∉ ai.mines) : InvAI (markSafeAll ai X) := by
  obtain ⟨hdisj, hknow⟩ := hinv
  constructor
  · show Disjoint (ai.safes ∪ X) ai.mines
    rw [Finset.disjoint_union_left]
    exact ⟨hdisj, Finset.disjoint_left.mpr hX⟩
  · intro S hS c hc
    simp only [markSafeAll, List.mem_map] at hS
    obtain ⟨T, hT, rfl⟩ := hS
    simp only [Finset.mem_sdiff] at hc
    have := hknow T hT c hc.1
    simp only [markSafeAll, Finset.mem_union] at this ⊢
    push_neg at this ⊢
    exact ⟨⟨this.1, hc.2⟩, this.2⟩

theorem markMineAll_inv {ai : AI} {X : Finset Cell} (hinv : InvAI ai)
    (hX : ∀ c ∈ X, c ∉ ai.safes) : InvAI (markMineAll ai X) := by
  obtain ⟨hdisj, hknow⟩ := hinv
  constructor
  · show Disjoint ai.safes (ai.mines ∪ X)
    rw [Finset.disjoint_union_right]
    exact ⟨hdisj, Finset.disjoint_right.mpr hX⟩
  · intro S hS c hc
    simp only [markMineAll, List.mem_map] at hS
    obtain ⟨T, hT, rfl⟩ := hS
    simp only [Finset.mem_sdiff] at hc
    have := hknow T hT c hc.1
    simp only [markMineAll, Finset.mem_union] at this ⊢
    push_neg at this ⊢
    exact ⟨this.1, ⟨this.2, hc.2⟩⟩

theorem known_safes_getD_subset (s : Sentence) : s.known_safes.getD ∅ ⊆ s.cells := by
  unfold Sentence.known_safes
  split
  · simp
  · split <;> simp

theorem known_mines_getD_subset (s : Sentence) : s.known_mines.getD ∅ ⊆ s.cells := by
  unfold Sentence.known_mines
  split
  · simp
  · split <;> simp

theorem nthS_cells_avoid {ai : AI} (hinv : InvAI ai) (i : Nat) :
    ∀ c ∈ (nthS ai.knowledge i).cells, c ∉ ai.safes ∪ ai.mines := by
  rcases nthS_mem_or ai.knowledge i with hmem | hdef
  · exact hinv.2 _ hmem
  · rw [hdef]
    intro c hc
    exact absurd hc (by simp)

theorem extractSafe_inv {ai : AI} (hinv : InvAI ai) (i : Nat) :
    InvAI (extractSafe ai i) := by
  unfold extractSafe
  split
  · refine markSafeAll_inv hinv ?_
    intro c hc
    have := nthS_cells_avoid hinv i c (known_safes_getD_subset _ hc)
    simp only [Finset.mem_union] at this
    push_neg at this
    exact this.2
  · exact hinv

theorem extractMine_inv {ai : AI} (hinv : InvAI ai) (i : Nat) :
    InvAI (extractMine ai i) := by
  unfold extractMine
  split
  · refine markMineAll_inv hinv ?_
    intro c hc
    have := nthS_cells_avoid hinv i c (known_mines_getD_subset _ hc)
    simp only [Finset.mem_union] at this
    push_neg at this
    exact this.1
  · exact hinv

theorem extractStep_inv {ai : AI} (hinv : InvAI ai) (i : Nat) :
    InvAI (extractStep ai i) :=
  extractMine_inv (extractSafe_inv hinv i) i

theorem extraction_inv {ai : AI} (hinv : InvAI ai) : InvAI (extraction ai) := by
  unfold extraction
  exact foldl_preserve (P := InvAI) (fun a i h => extractStep_inv h i) _ ai hinv

theorem observe_inv {ai : AI} {c : Cell} (hc : c ∉ ai.mines) (hinv : InvAI ai) :
    InvAI (observe ai c) := by
  obtain ⟨hdisj, hknow⟩ := hinv
  constructor
  · show Disjoint (insert c ai.safes) ai.mines
    rw [Finset.disjoint_insert_left]
    exact ⟨hc, hdisj⟩
  · intro S hS d hd
    simp only [observe, AI.mark_safe, List.mem_map] at hS
    obtain ⟨T, hT, rfl⟩ := hS
    rw [Sentence.mark_safe_eq] at hd
    simp only [Finset.mem_erase] at hd
    have := hknow T hT d hd.2
    simp only [observe, AI.mark_safe, Finset.mem_union, Finset.mem_insert] at this ⊢
    push_neg at this ⊢
    exact ⟨⟨hd.1, this.1⟩, this.2⟩

theorem cleanup_inv {ai : AI} (hinv : InvAI ai) : InvAI (cleanup ai) :=
  ⟨hinv.1, knowledgeAvoids_of_subset (fun _ hS => mem_pyFilterEmpties hS) hinv.2⟩

theorem knowledgeAvoids_append {A : Finset Cell} {l : List Sentence} {x : Sentence}
    (hl : KnowledgeAvoids A l) (hx : ∀ c ∈ x.cells, c ∉ A) :
    KnowledgeAvoids A (l ++ [x]) := by
  intro S hS
  rcases List.mem_append.mp hS with h | h
  · exact hl S h
  · rw [List.mem_singleton.mp h]
    exact hx

theorem subsetStep_avoids {A cells : Finset Cell} {cnt : ℤ} {newS : Sentence}
    {l : List Sentence} (i : Nat) (hl : KnowledgeAvoids A l)
    (hcells : ∀ c ∈ cells, c ∉ A) :
    KnowledgeAvoids A (subsetStep cells cnt newS l i) := by
  have hsi : ∀ c ∈ (nthS l i).cells, c ∉ A := by
    rcases nthS_mem_or l i with hmem | hdef
    · exact hl _ hmem
    · rw [hdef]; intro c hc; exact absurd hc (by simp)
  unfold subsetStep
  split
  · exact hl
  · split
    · have h1 : KnowledgeAvoids A (l ++ [⟨cells \ (nthS l i).cells, cnt - (nthS l i).count⟩]) :=
        knowledgeAvoids_append hl (fun c hc => hcells c (Finset.mem_sdiff.mp hc).1)
      split
      · exact knowledgeAvoids_of_subset (fun _ hS => mem_pyRemove hS) h1
      · exact h1
    · split
      · exact knowledgeAvoids_of_subset (fun _ hS => mem_pyRemove hS)
          (knowledgeAvoids_append hl (fun c hc => hsi c (Finset.mem_sdiff.mp hc).1))
      · exact hl

theorem resolvePhase_inv {ai : AI} {cells : Finset Cell} {cnt : ℤ} (hinv : InvAI ai)
    (hcells : ∀ c ∈ cells, c ∉ ai.safes ∪ ai.mines) : InvAI (resolvePhase ai cells cnt) := by
  refine ⟨hinv.1, ?_⟩
  show KnowledgeAvoids (ai.safes ∪ ai.mines)
    (subsetPhase (ai.knowledge ++ [⟨cells, cnt⟩]) cells cnt ⟨cells, cnt⟩)
  unfold subsetPhase
  exact foldl_preserve (P := KnowledgeAvoids (ai.safes ∪ ai.mines))
    (fun a i h => subsetStep_avoids i h hcells) _ _
    (knowledgeAvoids_append hinv.2 hcells)

theorem candidateCells_avoid (ai : AI) (c : Cell) :
    ∀ d ∈ candidateCells ai c, d ∉ ai.safes ∪ ai.mines := by
  intro d hd
  simp only [candidateCells, Finset.mem_filter] at hd
  simp only [Finset.mem_union]
  push_neg
  exact ⟨hd.2.2, hd.2.1⟩

theorem add_knowledge_inv {ai : AI} {c : Cell} {n : ℤ} (hc : c ∉ ai.mines)
    (hinv : InvAI ai) : InvAI (add_knowledge ai c n) := by
  have h2 : InvAI (observe ai c) := observe_inv hc hinv
  have h3 : InvAI (cleanup (observe ai c)) := cleanup_inv h2
  unfold add_knowledge
  split
  · exact h3
  · refine extraction_inv (resolvePhase_inv h3 ?_)
    exact candidateCells_avoid (observe ai c) c

theorem reachableOK_inv {s : AI} (h : ReachableOK s) : InvAI s := by
  induction h with
  | init h w => exact initAI_inv h w
  | obs c n _ hc ih => exact add_knowledge_inv hc ih
  | safeMove pick _ ih => exact ih
  | randomMove pick _ ih => exact ih

/-! ### Frame and monotonicity facts about the phases of `add_knowledge` -/

theorem extractSafe_moves (ai : AI) (i : Nat) :
    (extractSafe ai i).moves_made = ai.moves_made := by
  unfold extractSafe
  split <;> rfl

theorem extractMine_moves (ai : AI) (i : Nat) :
    (extractMine ai i).moves_made = ai.moves_made := by
  unfold extractMine
  split <;> rfl

theorem extractStep_moves (ai : AI) (i : Nat) :
    (extractStep ai i).moves_made = ai.moves_made := by
  unfold extractStep
  rw [extractMine_moves, extractSafe_moves]

theorem extraction_moves (ai : AI) : (extraction ai).moves_made = ai.moves_made := by
  unfold extraction
  exact foldl_preserve (P := fun a => a.moves_made = ai.moves_made)
    (fun a i h => (extractStep_moves a i).trans h) _ ai rfl

theorem extractSafe_safes_mono (ai : AI) (i : Nat) :
    ai.safes ⊆ (extractSafe ai i).safes := by
  unfold extractSafe
  split
  · exact Finset.subset_union_left
  · exact Finset.Subset.refl _

theorem extractMine_safes (ai : AI) (i : Nat) : (extractMine ai i).safes = ai.safes := by
  unfold extractMine
  split <;> rfl

theorem extractStep_safes_mono (ai : AI) (i : Nat) :
    ai.safes ⊆ (extractStep ai i).safes := by
  unfold extractStep
  rw [extractMine_safes]
  exact extractSafe_safes_mono ai i

theorem foldl_extractStep_safes_mono (l : List Nat) (ai : AI) :
    ai.safes ⊆ (List.foldl extractStep ai l).safes := by
  induction l generalizing ai with
  | nil => exact Finset.Subset.refl _
  | cons i t ih => exact (extractStep_safes_mono ai i).trans (ih (extractStep ai i))

theorem extraction_safes_mono (ai : AI) : ai.safes ⊆ (extraction ai).safes :=
  foldl_extractStep_safes_mono _ ai

/-! ### Sequences of `mark_mine`/`mark_safe` calls on a single sentence
(claim C3) -/

theorem invS_applyOp {s : Sentence} {op : MarkOp} (hinv : InvS s) (hok : OkStep s op) :
    InvS (applyOp s op) := by
  obtain ⟨h0, h1⟩ := hinv
  cases op with
  | mine c =>
    simp only [applyOp, Sentence.mark_mine]
    split
    · rename_i hc
      have hpos := hok hc
      have hcard : (1 : ℤ) ≤ (s.cells.card : ℤ) := by
        exact_mod_cast Finset.card_pos.mpr ⟨c, hc⟩
      have herase : ((s.cells.erase c).card : ℤ) = (s.cells.card : ℤ) - 1 := by
        rw [Finset.card_erase_of_mem hc]
        omega
      unfold InvS
      dsimp only
      omega
    · exact ⟨h0, h1⟩
  | safe c =>
    simp only [applyOp, Sentence.mark_safe]
    split
    · rename_i hc
      have hlt := hok hc
      have hcard : (1 : ℤ) ≤ (s.cells.card : ℤ) := by
        exact_mod_cast Finset.card_pos.mpr ⟨c, hc⟩
      have herase : ((s.cells.erase c).card : ℤ) = (s.cells.card : ℤ) - 1 := by
        rw [Finset.card_erase_of_mem hc]
        omega
      unfold InvS
      dsimp only
      omega
    · exact ⟨h0, h1⟩

theorem invS_applyOps {s : Sentence} {ops : List MarkOp} (hinv : InvS s)
    (hok : OkSeq s ops) : InvS (applyOps s ops) := by
  induction ops generalizing s with
  | nil => exact hinv
  | cons op t ih =>
    obtain ⟨hstep, htail⟩ := hok
    exact ih (invS_applyOp hinv hstep) htail

theorem okSeq_take {ops : List MarkOp} :
    ∀ {s : Sentence} (n : Nat), OkSeq s ops → OkSeq s (ops.take n) := by
  induction ops with
  | nil => intro s n _; simp [OkSeq]
  | cons op t ih =>
    intro s n hok
    cases n with
    | zero => exact trivial
    | succ m => exact ⟨hok.1, ih m hok.2⟩

/-! ### The claims -/

/-- C1, counterexample: the state reached by the public calls of `trace15`
(probe `(0,1)` with count 1, then `(0,3)` with count 2, on a 1x5 board) is not
a fixpoint of the deduction process - running the extraction pass once more on
the state `add_knowledge` returned marks a new cell safe, contradicting the
claim that every returned state is a fixpoint of steps 5-6. -/
theorem C1_counterexample : (extraction trace15).safes ≠ trace15.safes := by decide

/-- C1, amended: `add_knowledge` runs resolution and extraction as a single
pass, not to a fixpoint; on the reachable state `trace15` the returned state
still contains the conclusive sentence `({(0,0)}, 0)` and re-running the
extraction pass marks the new cell `(0,0)` safe. -/
theorem C1_single_pass :
    ((0:ℤ), (0:ℤ)) ∈ (extraction trace15).safes ∧
    ((0:ℤ), (0:ℤ)) ∉ trace15.safes := by decide

/-- C2: with the constraint `A = {(0,0),(0,1),(0,2)} = 1` in the knowledge
base, probing `(1,1)` with count 2 produces the candidate constraint
`B = {(0,0),(0,1),(0,2),(1,0)} = 2`; the subset-method loop derives the
sentence `({(1,0)}, 1)` (present in the knowledge base right after the
resolution phase), and the extraction pass then marks `(1,0)` as a known
mine. -/
theorem C2_subset_resolution :
    candidateCells (observe c2state ((1:ℤ), (1:ℤ))) ((1:ℤ), (1:ℤ)) =
      {((0:ℤ),(0:ℤ)), ((0:ℤ),(1:ℤ)), ((0:ℤ),(2:ℤ)), ((1:ℤ),(0:ℤ))} ∧
    adjustedCount (observe c2state ((1:ℤ), (1:ℤ))) ((1:ℤ), (1:ℤ)) 2 = 2 ∧
    (⟨{((1:ℤ), (0:ℤ))}, 1⟩ : Sentence) ∈
      (resolvePhase (cleanup (observe c2state ((1:ℤ), (1:ℤ))))
        (candidateCells (observe c2state ((1:ℤ), (1:ℤ))) ((1:ℤ), (1:ℤ)))
        (adjustedCount (observe c2state ((1:ℤ), (1:ℤ))) ((1:ℤ), (1:ℤ)) 2)).knowledge ∧
    ((1:ℤ), (0:ℤ)) ∈ (add_knowledge c2state ((1:ℤ), (1:ℤ)) 2).mines := by decide

/-- C3, counterexample: the invariant `0 <= count <= |cells|` is not preserved
by arbitrary call sequences - `mark_safe` on the sole cell of the well-formed
sentence `({(0,0)}, 1)` leaves `count = 1 > 0 = |cells|`. -/
theorem C3_counterexample :
    InvS ⟨{((0:ℤ), (0:ℤ))}, 1⟩ ∧
    ¬ InvS (Sentence.mark_safe ⟨{((0:ℤ), (0:ℤ))}, 1⟩ ((0:ℤ), (0:ℤ))) := by decide

/-- C3, amended: the invariant `0 <= count <= |cells|` holds after every call
of a `mark_mine`/`mark_safe` sequence provided each call is consistent with
the sentence it is applied to: a member cell is marked a mine only while
`count > 0` and marked safe only while `count < |cells|` (exactly the
conditions under which the marked cell can in fact be a mine resp. safe). -/
theorem C3_amended {s : Sentence} {ops : List MarkOp} (hinv : InvS s)
    (hok : OkSeq s ops) : ∀ n : Nat, InvS (applyOps s (ops.take n)) :=
  fun n => invS_applyOps hinv (okSeq_take n hok)

/-- C3, witness for the amended theorem at a concrete sentence and call
sequence. -/
theorem C3_amended_witness :
    (InvS ⟨{((0:ℤ),(0:ℤ)), ((0:ℤ),(1:ℤ))}, 1⟩ ∧
      OkSeq ⟨{((0:ℤ),(0:ℤ)), ((0:ℤ),(1:ℤ))}, 1⟩
        [MarkOp.mine ((0:ℤ), (0:ℤ)), MarkOp.safe ((0:ℤ), (1:ℤ))]) ∧
    InvS (applyOps ⟨{((0:ℤ),(0:ℤ)), ((0:ℤ),(1:ℤ))}, 1⟩
      ([MarkOp.mine ((0:ℤ), (0:ℤ)), MarkOp.safe ((0:ℤ), (1:ℤ))].take 2)) :=
  ⟨⟨by decide, by decide⟩, C3_amended (by decide) (by decide) 2⟩

/-- C4, counterexample: `safes` and `mines` are not disjoint in every state
reachable by public calls - on a 2x2 board, probing `(0,0)` with count 3
marks `(0,1)` as a mine, and then probing `(0,1)` (a public call the engine
accepts) marks it safe as well, so the two sets intersect. -/
theorem C4_counterexample :
    ((0:ℤ), (1:ℤ)) ∈ trace22b.safes ∧ ((0:ℤ), (1:ℤ)) ∈ trace22b.mines ∧
    ¬ Disjoint trace22b.safes trace22b.mines := by
  refine ⟨by decide, by decide, fun h => ?_⟩
  exact Finset.disjoint_left.mp h
    (show ((0:ℤ), (1:ℤ)) ∈ trace22b.safes by decide)
    (show ((0:ℤ), (1:ℤ)) ∈ trace22b.mines by decide)

/-- C4, amended: `safes` and `mines` are disjoint in every state reachable by
public calls in which `add_knowledge` is never invoked on a cell already known
to be a mine (the only way `add_knowledge` can merge the two sets is the
unconditional `mark_safe` of the probed cell). -/
theorem C4_amended {s : AI} (h : ReachableOK s) : Disjoint s.safes s.mines :=
  (reachableOK_inv h).1

/-- C4, witness for the amended theorem on a concrete guarded trace. -/
theorem C4_amended_witness : Disjoint trace22.safes trace22.mines :=
  C4_amended (by unfold trace22; exact ReachableOK.obs _ _ (ReachableOK.init 2 2) (by decide))

/-- C5: on the fully probed 2x1 board `trace21` the pool prescribed by the
specification (`all_cells - probed - known_safe - known_mine` with
`all_cells = [0,height) x [0,width)`) is empty, so `make_random_move` should
return none; but the source builds the transposed set
`(i, j) for i in range(width), j in range(height)`, which still contains the
off-board cell `(0,1)`, and the call returns that cell instead of none. -/
theorem C5_transposed_candidates :
    spec_random_candidates trace21 = ∅ ∧
    random_setall trace21 = {((0:ℤ), (1:ℤ))} ∧
    ∀ pick : Finset Cell → Cell,
      (make_random_move trace21 pick).1 = some (pick {((0:ℤ), (1:ℤ))}) := by
  refine ⟨by decide, by decide, fun pick => ?_⟩
  have hne : random_setall trace21 = {((0:ℤ), (1:ℤ))} := by decide
  simp only [make_random_move, hne]
  rw [if_neg (by decide : ({((0:ℤ), (1:ℤ))} : Finset Cell) ≠ ∅)]

/-- C6, counterexample: a call of `add_knowledge` on the out-of-bounds cell
`(-1,0)` of an 8x8 board is not rejected and does not leave the state
unchanged: the cell is recorded in `moves_made` (and in `safes`), and a
constraint built from the out-of-bounds probe (over its in-bounds neighbours
`(0,0)` and `(0,1)`) enters the knowledge base. -/
theorem C6_counterexample :
    add_knowledge (initAI 8 8) ((-1:ℤ), (0:ℤ)) 1 ≠ initAI 8 8 ∧
    ((-1:ℤ), (0:ℤ)) ∈ (add_knowledge (initAI 8 8) ((-1:ℤ), (0:ℤ)) 1).moves_made ∧
    (⟨{((0:ℤ),(0:ℤ)), ((0:ℤ),(1:ℤ))}, 1⟩ : Sentence) ∈
      (add_knowledge (initAI 8 8) ((-1:ℤ), (0:ℤ)) 1).knowledge := by decide

/-- C6, amended: `add_knowledge` performs no bounds check at all - for every
state, every cell (in or out of bounds) and every count, the probed cell is
added to `moves_made` and marked safe. -/
theorem C6_no_bounds_check (ai : AI) (c : Cell) (n : ℤ) :
    (add_knowledge ai c n).moves_made = insert c ai.moves_made ∧
    c ∈ (add_knowledge ai c n).safes := by
  have hm : (observe ai c).moves_made = insert c ai.moves_made := rfl
  have hs : c ∈ (observe ai c).safes := Finset.mem_insert_self c ai.safes
  unfold add_knowledge
  split
  · exact ⟨hm, hs⟩
  · constructor
    · rw [extraction_moves]
      exact hm
    · exact extraction_safes_mono _ hs

/-- C7, counterexample: immediately after the call of `add_knowledge` that
builds `trace22` returns, the knowledge base still contains the sentence
`(∅, 0)` that the extraction pass emptied. -/
theorem C7_counterexample : (⟨∅, 0⟩ : Sentence) ∈ trace22.knowledge := by decide

/-- C7, amended: an empty constraint produced during a call survives that
call; it is removed by the cleanup pass at the start of a subsequent
`add_knowledge` call (here the next probe clears the knowledge base). -/
theorem C7_deferred_cleanup :
    (⟨∅, 0⟩ : Sentence) ∈ trace22.knowledge ∧
    (add_knowledge trace22 ((0:ℤ), (0:ℤ)) 0).knowledge = [] := by decide

/-- C8: probing the centre of a fresh 3x3 board with count 0 marks all eight
neighbours safe; and in general, whenever the extraction loop visits a
sentence whose count is 0 at that moment, every cell then in its cell set is
in `safes` once the loop finishes. -/
theorem C8_zero_rule :
    (({((0:ℤ),(0:ℤ)), ((0:ℤ),(1:ℤ)), ((0:ℤ),(2:ℤ)), ((1:ℤ),(0:ℤ)), ((1:ℤ),(2:ℤ)),
       ((2:ℤ),(0:ℤ)), ((2:ℤ),(1:ℤ)), ((2:ℤ),(2:ℤ))} : Finset Cell) ⊆
      (add_knowledge (initAI 3 3) ((1:ℤ), (1:ℤ)) 0).safes) ∧
    ∀ (ai : AI) (i : Nat) (l1 l2 : List Nat),
      List.range ai.knowledge.length = l1 ++ i :: l2 →
      (nthS (List.foldl extractStep ai l1).knowledge i).count = 0 →
      ∀ c ∈ (nthS (List.foldl extractStep ai l1).knowledge i).cells,
        c ∈ (extraction ai).safes := by
  constructor
  · decide
  · intro ai i l1 l2 hsplit hcount c hc
    unfold extraction
    rw [hsplit, List.foldl_append, List.foldl_cons]
    refine foldl_extractStep_safes_mono l2 _ ?_
    set t := List.foldl extractStep ai l1 with ht
    have hks : (nthS t.knowledge i).known_safes = some (nthS t.knowledge i).cells := by
      unfold Sentence.known_safes
      rw [if_pos hcount]
    have hne : (nthS t.knowledge i).cells ≠ ∅ := Finset.ne_empty_of_mem hc
    have hcond : otruthy (nthS t.knowledge i).known_safes = true := by
      rw [hks]
      simp [otruthy, hne]
    have hstep : extractStep t i = extractMine (extractSafe t i) i := rfl
    have hsafe : extractSafe t i =
        markSafeAll t ((nthS t.knowledge i).known_safes.getD ∅) := by
      unfold extractSafe
      rw [if_pos hcond]
    rw [hstep, extractMine_safes, hsafe, hks]
    simp only [Option.getD_some, markSafeAll, Finset.mem_union]
    exact Or.inr hc

/-- C8, witness for the general zero-rule at the concrete state `zeroState`. -/
theorem C8_zero_rule_witness :
    (List.range zeroState.knowledge.length = [] ++ 0 :: [] ∧
      (nthS (List.foldl extractStep zeroState []).knowledge 0).count = 0 ∧
      ((0:ℤ), (0:ℤ)) ∈ (nthS (List.foldl extractStep zeroState []).knowledge 0).cells) ∧
    ((0:ℤ), (0:ℤ)) ∈ (extraction zeroState).safes :=
  ⟨⟨by decide, by decide, by decide⟩,
    C8_zero_rule.2 zeroState 0 [] [] (by decide) (by decide) _ (by decide)⟩

/-- C9: `mark_mine` removes a member cell and decrements the count and is a
no-op on a non-member; `mark_safe` removes a member cell leaving the count
unchanged and is a no-op on a non-member. -/
theorem C9_mark_operations (s : Sentence) (c : Cell) :
    (c ∈ s.cells → s.mark_mine c = ⟨s.cells.erase c, s.count - 1⟩) ∧
    (c ∉ s.cells → s.mark_mine c = s) ∧
    (c ∈ s.cells → s.mark_safe c = ⟨s.cells.erase c, s.count⟩) ∧
    (c ∉ s.cells → s.mark_safe c = s) := by
  refine ⟨fun h => ?_, fun h => ?_, fun h => ?_, fun h => ?_⟩ <;>
    simp [Sentence.mark_mine, Sentence.mark_safe, h]

/-- C9, witness at a concrete sentence: a member-cell `mark_mine` and a
non-member `mark_safe`. -/
theorem C9_mark_operations_witness :
    Sentence.mark_mine ⟨{((0:ℤ), (0:ℤ))}, 1⟩ ((0:ℤ), (0:ℤ)) =
      ⟨({((0:ℤ), (0:ℤ))} : Finset Cell).erase ((0:ℤ), (0:ℤ)), 1 - 1⟩ ∧
    Sentence.mark_safe ⟨{((0:ℤ), (0:ℤ))}, 1⟩ ((1:ℤ), (1:ℤ)) = ⟨{((0:ℤ), (0:ℤ))}, 1⟩ :=
  ⟨(C9_mark_operations _ _).1 (by decide), (C9_mark_operations _ _).2.2.2 (by decide)⟩

/-- C10: `make_safe_move` and `make_random_move` leave the entire engine state
unchanged - for every state and every choice function, the state component of
the returned pair is the input state itself (both methods only read the
engine). -/
theorem C10_frame (ai : AI) (p q : Finset Cell → Cell) :
    (make_safe_move ai p).2 = ai ∧ (make_random_move ai q).2 = ai :=
  ⟨rfl, rfl⟩

end Minesweeper
